import Mathlib

/-!
Verification of the `html-highlighter` core (`src/src/htmlhighlighter.js`)
against its natural-language specification.

The development shallowly embeds the `HtmlHighlighter` class: its registry
of query sets, the globally sorted highlight-marker list, the statistics
record, the deferred-transaction queue drained by `apply`, and
`getSelectedRange`.  DOM effects (wrapping/unwrapping elements, CSS classes,
cursor/UI updates) are not observable by any claim and are elided; whether a
particular wrap attempt succeeds or throws is an input of the model (the
`wrapOk` flag of a hit), as is the stream of hits a finder produces for a
query.
-/

namespace HtmlHighlighterModel

/-- A highlight marker stored in the globally sorted list `this.highlights`:
`{ query: q, index: count, offset: offset }`.  The JS code stores a reference
to the query-set object; sets are keyed by unique name, so the set's name
stands in for the reference. -/
structure HighlightMarker where
  queryName : String
  index : Nat
  offset : Nat
  deriving Repr, DecidableEq, Inhabited

/-- JS `markers.splice(pos, 0, x)`: insert `x` at index `pos`; a position at
or beyond the end appends. -/
def spliceInsert {α : Type} : Nat → α → List α → List α
  | 0, x, l => x :: l
  | _ + 1, x, [] => [x]
  | n + 1, x, a :: l => a :: spliceInsert n x l

/-- The lower-bound insertion index: the number of leading markers whose
stored offset is strictly below the new offset.  On a sorted list this is
the first index whose stored offset is `≥` the new offset. -/
def lowerB (ms : List HighlightMarker) (off : Nat) : Nat :=
  match ms with
  | [] => 0
  | m :: rest => if m.offset < off then lowerB rest off + 1 else 0

/-- The body of the `while (min < max)` binary-search loop of
`add_queries_` (src/src/htmlhighlighter.js lines 448-456), with an explicit
iteration bound: each pass shrinks `hi - lo`, so any fuel `≥ hi - lo` makes
this equal to the unbounded loop. -/
def bsearchGo (ms : List HighlightMarker) (off : Nat) :
    Nat → Nat → Nat → Nat
  | 0, lo, _ => lo
  | fuel + 1, lo, hi =>
    if lo < hi then
      let mid := (lo + hi) / 2
      if (ms.getD mid default).offset < off then bsearchGo ms off fuel (mid + 1) hi
      else bsearchGo ms off fuel lo mid
    else lo

/-- The `while (min < max)` binary-search loop, run to completion. -/
def bsearchLoop (ms : List HighlightMarker) (off : Nat) (lo hi : Nat) : Nat :=
  bsearchGo ms off (hi - lo) lo hi

/-- The complete insertion-position computation of `add_queries_`: binary
search over `[0, markers.length - 1]`, then the final adjustment
`markers.length > 0 && markers[min].offset < offset ? min + 1 : min`
(src/src/htmlhighlighter.js line 458). -/
def insertPos (ms : List HighlightMarker) (off : Nat) : Nat :=
  let lo := bsearchLoop ms off 0 (ms.length - 1)
  if 0 < ms.length ∧ (ms.getD lo default).offset < off then lo + 1 else lo

/-- The marker list is non-decreasing by `offset`. -/
def SortedMarkers (ms : List HighlightMarker) : Prop :=
  ms.Pairwise (fun a b => a.offset ≤ b.offset)

instance (ms : List HighlightMarker) : Decidable (SortedMarkers ms) := by
  unfold SortedMarkers; infer_instance

/-- A query-set descriptor as created by `deferred_add_`:
`{name, enabled, id_highlight, id, length}`, with `reserve` attached only
after `add_queries_` has run (`none` models the field being absent). -/
structure QuerySet where
  name : String
  enabled : Bool
  id_highlight : Nat
  id : Int
  length : Nat
  reserve : Option Int
  deriving Repr, DecidableEq, Inhabited

/-- The `this.stats` record: count of query sets, count of enabled
highlights, and the next `id_highlight` to assign.  `queries` and `total`
are JS numbers and can in principle go negative, hence `Int`. -/
structure Stats where
  queries : Int
  total : Int
  highlight : Nat
  deriving Repr, DecidableEq, Inhabited

/-- The mutable state of a `HtmlHighlighter` instance, minus the DOM, the
text projection, the cursor and the UI (no claim observes those).  The
registry is a name-keyed JS object, modelled as an insertion-ordered list
with unique names. -/
structure HH where
  queries : List QuerySet
  highlights : List HighlightMarker
  stats : Stats
  lastId : Int
  maxHighlight : Nat
  deriving Repr, DecidableEq, Inhabited

/-- One finder hit, reduced to what `add_queries_` observes: the absolute
offset `hit.start.marker.offset + hit.start.offset`, and whether
`highlighter.do(hit)` succeeds (`wrapOk = false` models the wrap throwing,
e.g. a node detached mid-operation). -/
structure Hit where
  offset : Nat
  wrapOk : Bool
  deriving Repr, DecidableEq

/-- One element of the `queries` array handed to `add_queries_`: either
`constructFinder` throws for it (logged, query skipped) or it yields a
finite stream of hits. -/
inductive QueryInput
  | failCons
  | hits (l : List Hit)
  deriving Repr, DecidableEq

/-- The cap test at the head of the hit loop:
`reserve !== null && count >= reserve`. -/
def capReached (reserve : Option Int) (count : Nat) : Bool :=
  match reserve with
  | some r => decide (r ≤ (count : Int))
  | none => false

/-- The `while ((hit = finder.next()) !== false)` loop of `add_queries_`
(lines 437-470): check the reserve cap, binary-search the insertion
position, splice the marker `{query, index: count, offset}` in, then
attempt the wrap, incrementing `count` only on success.  A failed wrap is
logged; the marker just inserted is not removed. -/
def processHits (qname : String) (reserve : Option Int) :
    List Hit → List HighlightMarker × Nat → List HighlightMarker × Nat
  | [], st => st
  | h :: rest, (ms, count) =>
    if capReached reserve count then (ms, count)
    else
      let pos := insertPos ms h.offset
      let ms' := spliceInsert pos ⟨qname, count, h.offset⟩ ms
      let count' := if h.wrapOk then count + 1 else count
      processHits qname reserve rest (ms', count')

/-- The `queries.forEach` loop of `add_queries_`: a query whose finder
construction throws contributes nothing; otherwise its hits are processed.
(The `if (hit === false)` early return in the source is dead code: `hit`
is still `undefined` there, and `undefined === false` is `false`.) -/
def addQueriesLoop (qname : String) (reserve : Option Int) :
    List QueryInput → List HighlightMarker × Nat → List HighlightMarker × Nat
  | [], st => st
  | .failCons :: rest, st => addQueriesLoop qname reserve rest st
  | .hits l :: rest, st =>
    addQueriesLoop qname reserve rest (processHits qname reserve l st)

/-- The effective reserve computed at the top of `add_queries_`:
`const reserve = q.reserve > 0 ? q.reserve - q.length : null` (an unset
`q.reserve` compares as `undefined > 0 === false`). -/
def effectiveReserve (q : QuerySet) : Option Int :=
  match q.reserve with
  | some r => if 0 < r then some (r - (q.length : Int)) else none
  | none => none

/-- `add_queries_(name, q, queries, enabled)` (lines 403-478), where `q` is
the registry entry for its name.  On a freshly added set `q.reserve` is
still undefined, so the cap is inactive.  After the loops:
`q.length += count` and, if enabled, `stats.total += count`.  Returns the
updated state and `count`. -/
def add_queries_ (s : HH) (q : QuerySet) (queries : List QueryInput)
    (enabled : Bool) : HH × Nat :=
  let res := addQueriesLoop q.name (effectiveReserve q) queries (s.highlights, 0)
  let count := res.2
  let s' : HH :=
    { s with
      highlights := res.1
      queries := s.queries.map (fun p =>
        if p.name == q.name then { p with length := p.length + count } else p)
      stats :=
        if enabled then { s.stats with total := s.stats.total + (count : Int) }
        else s.stats }
  (s', count)

/-- The exceptions the deferred actions can throw. -/
inductive HHError
  | invalidQueries
  | setNonexistent
  | setNotCreated
  | setNotEmpty
  deriving Repr, DecidableEq

/-- `remove_(name)` (lines 488-517): `get_` throws when the set is absent;
otherwise decrement `stats.queries`, decrement `stats.total` by `q.length`
unconditionally, drop every marker whose query is `q`, and delete the
registry entry.  DOM unwrapping and the optional `container.normalize()` +
`refresh()` affect only the DOM and text projection and are elided. -/
def remove_ (s : HH) (name : String) : HH × Option HHError :=
  match s.queries.find? (fun q => q.name == name) with
  | none => (s, some .setNonexistent)
  | some q =>
    ({ s with
        stats := { s.stats with
          queries := s.stats.queries - 1
          total := s.stats.total - (q.length : Int) }
        highlights := s.highlights.filter (fun m => !(m.queryName == name))
        queries := s.queries.filter (fun p => !(p.name == name)) },
     none)

/-- The `id_highlight` roll-over at the end of `deferred_add_`:
`++stats.highlight; if (stats.highlight >= maxHighlight) stats.highlight = 0`. -/
def stepHighlight (h maxH : Nat) : Nat :=
  if h + 1 ≥ maxH then 0 else h + 1

/-- The queries argument of `add`/`append`: JS admits a non-array value,
which makes the deferred action throw before touching any state. -/
inductive QueriesArg
  | notArray
  | arr (l : List QueryInput)
  deriving Repr, DecidableEq

/-- The reserve-argument normalisation at the top of `deferred_add_`:
`if (typeof reserve !== 'number' || reserve < 1) reserve = null`. -/
def normReserve (ra : Option Int) : Option Int :=
  match ra with
  | some r => if r < 1 then none else some r
  | none => none

/-- The start of `deferred_add_`: `if (name in this.queries)
this.deferred_remove_(name)` — remove a pre-existing set of the same name. -/
def addStage1 (s : HH) (name : String) : HH :=
  if s.queries.any (fun q => q.name == name) then (remove_ s name).1 else s

/-- The fresh query-set descriptor `deferred_add_` registers:
`{name, enabled, id_highlight: stats.highlight, id: lastId, length: 0}` —
note, with no `reserve` field. -/
def freshQ (s1 : HH) (name : String) (enabled : Bool) : QuerySet :=
  { name := name, enabled := enabled, id_highlight := s1.stats.highlight
    id := s1.lastId, length := 0, reserve := none }

/-- The `lastId`/`q.reserve` settlement after `add_queries_` in
`deferred_add_` (lines 586-596): with a (normalised) reserve, either
`lastId = reserve; q.reserve = reserve` when `reserve > count`, or — after
logging `Invalid or insufficient reserve specified` — `q.reserve = count`
with `lastId` untouched; with no reserve, `lastId += count`. -/
def addStage3 (s3 : HH) (name : String) (reserve : Option Int) (count : Nat) : HH :=
  match reserve with
  | some r =>
    if (count : Int) < r then
      { s3 with
        lastId := r
        queries := s3.queries.map (fun p : QuerySet =>
          if p.name == name then { p with reserve := some r } else p) }
    else
      { s3 with
        queries := s3.queries.map (fun p : QuerySet =>
          if p.name == name then { p with reserve := some (count : Int) } else p) }
  | none => { s3 with lastId := s3.lastId + (count : Int) }

/-- The statistics update closing `deferred_add_` (lines 598-605):
`++stats.queries` and the `id_highlight` roll-over. -/
def addStage4 (s4 : HH) : HH :=
  { s4 with stats := { s4.stats with
      queries := s4.stats.queries + 1
      highlight := stepHighlight s4.stats.highlight s4.maxHighlight } }

/-- `deferred_add_(name, queries, enabled, reserve)` (lines 559-612):
validate the arguments, remove an existing set of the same name, register
the fresh descriptor, run `add_queries_`, then settle `lastId`/`q.reserve`
and the statistics.  Cursor/UI updates are elided and the debug-only
`assert_` is not run. -/
def deferred_add_ (s : HH) (name : String) (queriesArg : QueriesArg)
    (enabled : Bool) (reserveArg : Option Int) : HH × Option HHError :=
  match queriesArg with
  | .notArray => (s, some .invalidQueries)
  | .arr queries =>
    let s1 := addStage1 s name
    let s2 := { s1 with queries := s1.queries ++ [freshQ s1 name enabled] }
    let res := add_queries_ s2 (freshQ s1 name enabled) queries enabled
    (addStage4 (addStage3 res.1 name (normReserve reserveArg) res.2), none)

/-- `deferred_append_(name, queries, enabled)` (lines 614-627): validate,
require the set to exist, and run `add_queries_` on it. -/
def deferred_append_ (s : HH) (name : String) (queriesArg : QueriesArg)
    (enabled : Bool) : HH × Option HHError :=
  match queriesArg with
  | .notArray => (s, some .invalidQueries)
  | .arr queries =>
    match s.queries.find? (fun q => q.name == name) with
    | none => (s, some .setNotCreated)
    | some q => ((add_queries_ s q queries enabled).1, none)

/-- `deferred_enable_(name)` (lines 635-650): a no-op when already enabled
(the `q.id === null` disjunct never holds — `id` is always a number);
otherwise remove the disabled CSS class (elided) and add `q.length` to
`stats.total`. -/
def deferred_enable_ (s : HH) (name : String) : HH × Option HHError :=
  match s.queries.find? (fun q => q.name == name) with
  | none => (s, some .setNonexistent)
  | some q =>
    if q.enabled then (s, none)
    else
      ({ s with
          queries := s.queries.map (fun p =>
            if p.name == name then { p with enabled := true } else p)
          stats := { s.stats with total := s.stats.total + (q.length : Int) } },
       none)

/-- `deferred_disable_(name)` (lines 652-667): dual of `deferred_enable_`:
a no-op when already disabled; otherwise add the disabled CSS class
(elided) and subtract `q.length` from `stats.total`. -/
def deferred_disable_ (s : HH) (name : String) : HH × Option HHError :=
  match s.queries.find? (fun q => q.name == name) with
  | none => (s, some .setNonexistent)
  | some q =>
    if !q.enabled then (s, none)
    else
      ({ s with
          queries := s.queries.map (fun p =>
            if p.name == name then { p with enabled := false } else p)
          stats := { s.stats with total := s.stats.total - (q.length : Int) } },
       none)

/-- `deferred_clear_(reset)` (lines 669-683): remove every query set
(iterating over a snapshot of the registry keys), throw if the registry is
somehow not empty afterwards, and otherwise optionally reset `lastId` and
`stats.highlight`. -/
def deferred_clear_ (s : HH) (reset : Bool) : HH × Option HHError :=
  let names := s.queries.map (fun q => q.name)
  let s1 := names.foldl (fun st n => (remove_ st n).1) s
  if s1.queries.isEmpty then
    (if reset then
        { s1 with lastId := 0, stats := { s1.stats with highlight := 0 } }
      else s1,
     none)
  else (s1, some .setNotEmpty)

/-- A deferred action pushed onto `this.transaction` by the public
operations (`deferred_remove_` adds only an elided cursor/UI update on top
of `remove_`). -/
inductive Action
  | add (name : String) (queries : QueriesArg) (enabled : Bool) (reserve : Option Int)
  | append (name : String) (queries : QueriesArg) (enabled : Bool)
  | remove (name : String)
  | enable (name : String)
  | disable (name : String)
  | clear (reset : Bool)
  deriving Repr, DecidableEq

/-- Run one deferred action, returning the resulting state and the
exception it threw, if any.  Every action throws before mutating any state,
except `clear`, whose (unreachable) emptiness check throws after the
removals — the returned state is the mutated one in that case, exactly as
in JS. -/
def runAction (a : Action) (s : HH) : HH × Option HHError :=
  match a with
  | .add name queries enabled reserve => deferred_add_ s name queries enabled reserve
  | .append name queries enabled => deferred_append_ s name queries enabled
  | .remove name => remove_ s name
  | .enable name => deferred_enable_ s name
  | .disable name => deferred_disable_ s name
  | .clear reset => deferred_clear_ s reset

/-- The highlighter together with its pending transaction queue. -/
structure HHFull where
  hh : HH
  transaction : List Action
  deriving Repr, DecidableEq

/-- One step of the `transaction.forEach` drain loop in `apply()`: run the
action inside `try { … } catch (x) { console.error(…) }` — the exception is
logged and dropped. -/
def applyStep (s : HH) (a : Action) : HH := (runAction a s).1

/-- `apply()` (lines 215-230): when the queue is empty only a message is
logged; otherwise every queued action runs in enqueue order, each inside
its own `try`/`catch`, and finally `this.transaction = []`. -/
def apply (f : HHFull) : HHFull :=
  if f.transaction.isEmpty then f
  else { hh := f.transaction.foldl applyStep f.hh, transaction := [] }

/-- `empty()` (lines 372-376):
`!Object.keys(this.queries).some(k => this.queries[k].length > 0)`. -/
def empty (s : HH) : Bool :=
  !(s.queries.any (fun q => decide (0 < q.length)))

/-- `assert_()` (lines 535-557) as a boolean check: `true` iff every marker
has an offset `≥` its predecessor's and an `index` below its query set's
`length`, and the number of markers equals the summed `length` of all query
sets. -/
def assertOk (s : HH) : Bool :=
  let l := s.queries.foldl (fun acc q => acc + q.length) 0
  let r := s.highlights.foldl
    (fun (st : Option (Nat × Nat)) m =>
      match st with
      | none => none
      | some (c, k) =>
        match s.queries.find? (fun q => q.name == m.queryName) with
        | none => none
        | some q =>
          if m.offset < c ∨ q.length ≤ m.index then none
          else some (m.offset, k + 1))
    (some (0, 0))
  match r with
  | none => false
  | some (_, k) => k == l

/-- A freshly constructed highlighter: empty registry and marker list,
zeroed statistics and `lastId`, with the given `maxHighlight` option. -/
def initHH (maxH : Nat) : HH :=
  { queries := [], highlights := [], stats := ⟨0, 0, 0⟩, lastId := 0
    maxHighlight := maxH }

/-- Registry lookup by name (`this.queries[name]`). -/
def getQ (s : HH) (name : String) : Option QuerySet :=
  s.queries.find? (fun q => q.name == name)

/-- Summed `length` over all registered query sets. -/
def sumLengths (s : HH) : Nat := (s.queries.map (fun q => q.length)).sum

/-- Summed `length` over the enabled query sets only. -/
def enabledTotal (s : HH) : Int :=
  (s.queries.map (fun q => if q.enabled then (q.length : Int) else 0)).sum

/-- Number of markers in a list that belong to the named query set. -/
def countName (ms : List HighlightMarker) (name : String) : Nat :=
  ms.countP (fun m => m.queryName == name)

/-- A text marker of the `TextContent` projection.  Modelled from the spec:
`textcontent.js` is not under `src/`; §3/§4.1 define a marker as
`{node, offset}` with `offset` the cumulative character count preceding the
node.  `nodeLen` carries `node.data.length`, which `descriptorRel` needs
for clamping; DOM text nodes are identified by a numeric id. -/
structure TCMarker where
  nodeId : Nat
  offset : Nat
  nodeLen : Nat
  deriving Repr, DecidableEq, Inhabited

/-- Modelled from the spec: `TextContent` (not under `src/`) reduced to its
marker list (§4.1). -/
structure TextContentModel where
  markers : List TCMarker
  deriving Repr, DecidableEq

/-- Modelled from the spec: `TextContent.find(node)` — return the marker
index whose node is identical to the argument, else `-1` (§4.1). -/
def tcFind (tc : TextContentModel) (nid : Nat) : Int :=
  match tc.markers.findIdx? (fun m => m.nodeId == nid) with
  | some i => (i : Int)
  | none => -1

/-- Modelled from the spec: `TextContent.at(index)` — return marker
`index` (§4.1); an out-of-range JS array access yields `undefined`,
modelled as `none`. -/
def tcAt (tc : TextContentModel) (i : Nat) : Option TCMarker :=
  tc.markers[i]?

/-- A position descriptor `{marker, offset}` (§3).  The offset is kept as a
JS number (`Int`): the same-node `end` descriptor is written without
clamping and may exceed the node. -/
structure PosDescriptor where
  marker : TCMarker
  offset : Int
  deriving Repr, DecidableEq

/-- Modelled from the spec: `Range.descriptorRel(marker, relOffset)`
(`range.js` is not under `src/`) — it clamps the offset into the marker's
node (§4.3), the valid range being `0 ≤ offset < length(node.data)` (§3). -/
def descriptorRel (m : TCMarker) (rel : Int) : PosDescriptor :=
  { marker := m, offset := max 0 (min rel ((m.nodeLen : Int) - 1)) }

/-- The result of `new Range(content, start, end)` as far as
`getSelectedRange` is concerned: its two position descriptors. -/
structure RangeModel where
  start : PosDescriptor
  end_ : PosDescriptor
  deriving Repr, DecidableEq

/-- A DOM node as seen by `getSelectedRange`: its identity and its
`nodeType` (3 = text node). -/
structure SelNode where
  nodeId : Nat
  nodeType : Nat
  deriving Repr, DecidableEq

/-- The host selection (`window.getSelection()`) reduced to the fields
`getSelectedRange` reads; `toStringLen` is `sel.toString().length`.  An
absent selection (no `anchorNode`) is modelled as `none` at the use site. -/
structure SelectionModel where
  anchorNode : SelNode
  anchorOffset : Nat
  focusNode : SelNode
  focusOffset : Nat
  toStringLen : Nat
  deriving Repr, DecidableEq

/-- The one way `getSelectedRange` can raise: a JS `TypeError`.  In the
reverse cross-node branch the source passes the freshly reassigned `start`
— by then a position *descriptor* — to `content.at`, which expects a
marker *index*; the array lookup yields `undefined`, and `descriptorRel`
dereferences it. -/
inductive SelError
  | typeError
  deriving Repr, DecidableEq

/-- `getSelectedRange()` (lines 285-345).  Absent selection, non-text
anchor/focus, non-positive computed length, or an unknown anchor/focus node
all yield `null`.  Orientation: with `start`/`end` the marker indices of
anchor/focus, a forward selection takes the first branch; the reverse
branch rebuilds `start` from the focus and — in its cross-node arm — feeds
the just-built descriptor back into `content.at`, raising a `TypeError`.
The reverse same-node arm is kept although it is unreachable (same node
forces equal indices, and a same-node selection with
`anchorOffset ≥ focusOffset` was already rejected via `len <= 0`). -/
def getSelectedRange (sel : Option SelectionModel) (tc : TextContentModel) :
    Except SelError (Option RangeModel) :=
  match sel with
  | none => .ok none
  | some sel =>
    if sel.anchorNode.nodeType ≠ 3 ∨ sel.focusNode.nodeType ≠ 3 then .ok none
    else
      let len : Int :=
        if sel.anchorNode.nodeId = sel.focusNode.nodeId then
          (sel.focusOffset : Int) - (sel.anchorOffset : Int)
        else (sel.toStringLen : Int)
      if len ≤ 0 then .ok none
      else
        let start : Int := tcFind tc sel.anchorNode.nodeId
        let end_ : Int :=
          if sel.focusNode.nodeId = sel.anchorNode.nodeId then start
          else tcFind tc sel.focusNode.nodeId
        if start < 0 ∨ end_ < 0 then .ok none
        else if start < end_ ∨ (start = end_ ∧ sel.anchorOffset < sel.focusOffset) then
          match tcAt tc start.toNat with
          | none => .error .typeError
          | some m =>
            let st := descriptorRel m (sel.anchorOffset : Int)
            if sel.focusNode.nodeId = sel.anchorNode.nodeId then
              .ok (some ⟨st, { st with offset := st.offset + len - 1 }⟩)
            else
              match tcAt tc end_.toNat with
              | none => .error .typeError
              | some me =>
                .ok (some ⟨st, descriptorRel me ((sel.focusOffset : Int) - 1)⟩)
        else
          match tcAt tc end_.toNat with
          | none => .error .typeError
          | some m =>
            let st := descriptorRel m (sel.focusOffset : Int)
            if sel.focusNode.nodeId = sel.anchorNode.nodeId then
              .ok (some ⟨st, { st with offset := st.offset + len - 1 }⟩)
            else .error .typeError

/-- Every hit of the query input wraps successfully. -/
def hitsOk : QueryInput → Bool
  | .failCons => true
  | .hits l => l.all (fun h => h.wrapOk)

/-- No wrap attempt of the action throws. -/
def actionWrapsOk : Action → Bool
  | .add _ (.arr qs) _ _ => qs.all hitsOk
  | .append _ (.arr qs) _ => qs.all hitsOk
  | _ => true

/-- No wrap attempt in the whole transaction throws. -/
def txWrapsOk (ts : List Action) : Bool := ts.all actionWrapsOk

/-- The registry/marker-list invariant: marker list non-decreasing by
offset, unique registry names, every marker owned by a registered set, and
per-set marker counts tracking `length`. -/
structure InvQH (queries : List QuerySet) (highlights : List HighlightMarker) : Prop where
  sorted : SortedMarkers highlights
  nodupNames : (queries.map (fun q => q.name)).Nodup
  ownersLive : ∀ m ∈ highlights, ∃ q ∈ queries, m.queryName = q.name
  counts : ∀ q ∈ queries, countName highlights q.name = q.length

/-- The invariant, read off a highlighter state; the statistics, `lastId`
and options do not participate. -/
abbrev Inv (s : HH) : Prop := InvQH s.queries s.highlights

/-- C3's failing input, run: an `add` with reserve 5 whose single query
yields ten hits, all of which wrap successfully. -/
def c3run : HH :=
  (runAction (.add "x" (.arr [.hits [⟨0, true⟩, ⟨1, true⟩, ⟨2, true⟩, ⟨3, true⟩,
      ⟨4, true⟩, ⟨5, true⟩, ⟨6, true⟩, ⟨7, true⟩, ⟨8, true⟩, ⟨9, true⟩]]) true (some 5))
    (initHH 5)).1

/-- C4's failing input, run: an `add` of two hits without reserve (taking
`lastId` to 2), then an `add` of one hit with reserve 5. -/
def c4run : HHFull :=
  apply ⟨initHH 5,
    [.add "a" (.arr [.hits [⟨0, true⟩, ⟨1, true⟩]]) true none,
     .add "b" (.arr [.hits [⟨2, true⟩]]) true (some 5)]⟩

/-- C6's counterexample content: a single 20-character text node, id 10. -/
def c6tc : TextContentModel := ⟨[⟨10, 0, 20⟩]⟩

/-- C6's right-to-left same-node selection: anchor offset 5, focus offset 2. -/
def c6rtl : SelectionModel := ⟨⟨10, 3⟩, 5, ⟨10, 3⟩, 2, 3⟩

/-- The equivalent left-to-right selection: anchor offset 2, focus offset 5. -/
def c6ltr : SelectionModel := ⟨⟨10, 3⟩, 2, ⟨10, 3⟩, 5, 3⟩

theorem spliceInsert_length {α : Type} (n : Nat) (x : α) (l : List α) :
    (spliceInsert n x l).length = l.length + 1 := by
  induction n generalizing l with
  | zero => simp [spliceInsert]
  | succ n ih =>
    cases l with
    | nil => simp [spliceInsert]
    | cons a l => simp [spliceInsert, ih]

theorem spliceInsert_mem {α : Type} (n : Nat) (x : α) (l : List α) (y : α) :
    y ∈ spliceInsert n x l ↔ y = x ∨ y ∈ l := by
  induction n generalizing l with
  | zero => simp [spliceInsert]
  | succ n ih =>
    cases l with
    | nil => simp [spliceInsert]
    | cons a l =>
      simp only [spliceInsert, List.mem_cons, ih]
      tauto

theorem spliceInsert_countP {α : Type} (p : α → Bool) (n : Nat) (x : α) (l : List α) :
    (spliceInsert n x l).countP p = l.countP p + if p x then 1 else 0 := by
  induction n generalizing l with
  | zero => simp [spliceInsert, List.countP_cons]
  | succ n ih =>
    cases l with
    | nil => simp [spliceInsert, List.countP_cons]
    | cons a l =>
      simp only [spliceInsert, List.countP_cons, ih]
      split <;> omega

theorem lowerB_le_length (ms : List HighlightMarker) (off : Nat) :
    lowerB ms off ≤ ms.length := by
  induction ms with
  | nil => simp [lowerB]
  | cons m rest ih =>
    simp only [lowerB, List.length_cons]
    split <;> omega

theorem lowerB_spec (ms : List HighlightMarker) (off : Nat)
    (hs : SortedMarkers ms) (j : Nat) (hj : j < ms.length) :
    ((ms.getD j default).offset < off ↔ j < lowerB ms off) := by
  induction ms generalizing j with
  | nil => simp at hj
  | cons m rest ih =>
    simp only [SortedMarkers, List.pairwise_cons] at hs
    cases j with
    | zero =>
      by_cases h : m.offset < off
      · simp [lowerB, h]
      · simp [lowerB, h]
    | succ j =>
      simp only [List.getD_cons_succ]
      by_cases h : m.offset < off
      · simp only [lowerB, if_pos h]
        have hj' : j < rest.length := by simpa using hj
        rw [ih hs.2 j hj']
        omega
      · simp only [lowerB, if_neg h]
        have hj' : j < rest.length := by simpa using hj
        have hmem : rest.getD j default ∈ rest := by
          rw [List.getD_eq_getElem _ _ hj']
          exact List.getElem_mem hj'
        have := hs.1 _ hmem
        constructor
        · intro hlt; omega
        · intro hlt; omega

theorem bsearchGo_eq (ms : List HighlightMarker) (off : Nat)
    (hs : SortedMarkers ms) :
    ∀ fuel lo hi, hi - lo ≤ fuel → hi < ms.length →
      lo ≤ Nat.min (lowerB ms off) (ms.length - 1) →
      Nat.min (lowerB ms off) (ms.length - 1) ≤ hi →
      bsearchGo ms off fuel lo hi = Nat.min (lowerB ms off) (ms.length - 1) := by
  intro fuel
  induction fuel with
  | zero =>
    intro lo hi hf hh hlo hhi
    show lo = _
    omega
  | succ fuel ih =>
    intro lo hi hf hh hlo hhi
    show (if lo < hi then _ else lo) = _
    by_cases hlt : lo < hi
    · rw [if_pos hlt]
      have hmidlt : (lo + hi) / 2 < hi := by omega
      have hmidge : lo ≤ (lo + hi) / 2 := by omega
      have hmidlen : (lo + hi) / 2 < ms.length := by omega
      show (if (ms.getD ((lo + hi) / 2) default).offset < off then _ else _) = _
      by_cases hc : (ms.getD ((lo + hi) / 2) default).offset < off
      · rw [if_pos hc]
        have hlb : (lo + hi) / 2 < lowerB ms off :=
          (lowerB_spec ms off hs _ hmidlen).1 hc
        exact ih _ _ (by omega) hh (Nat.le_min.mpr ⟨by omega, by omega⟩) hhi
      · rw [if_neg hc]
        have hlb : lowerB ms off ≤ (lo + hi) / 2 := by
          by_contra hcon
          exact hc ((lowerB_spec ms off hs _ hmidlen).2 (by omega))
        exact ih _ _ (by omega) (by omega) hlo
          (Nat.le_trans (Nat.min_le_left _ _) hlb)
    · rw [if_neg hlt]
      omega

theorem insertPos_eq_lowerB (ms : List HighlightMarker) (off : Nat)
    (hs : SortedMarkers ms) : insertPos ms off = lowerB ms off := by
  cases hms : ms with
  | nil => simp [insertPos, bsearchLoop, bsearchGo, lowerB]
  | cons m rest =>
    rw [← hms]
    have hlen : 0 < ms.length := by rw [hms]; simp
    have hloop : bsearchLoop ms off 0 (ms.length - 1)
        = Nat.min (lowerB ms off) (ms.length - 1) :=
      bsearchGo_eq ms off hs (ms.length - 1 - 0) 0 (ms.length - 1)
        (by omega) (by omega) (Nat.zero_le _) (Nat.min_le_right _ _)
    have hlble := lowerB_le_length ms off
    unfold insertPos
    rw [hloop]
    by_cases hcase : lowerB ms off ≤ ms.length - 1
    · have hmin : Nat.min (lowerB ms off) (ms.length - 1) = lowerB ms off :=
        Nat.min_eq_left hcase
      rw [hmin]
      have : ¬((ms.getD (lowerB ms off) default).offset < off) := by
        intro hcon
        have hjlt : lowerB ms off < ms.length := by omega
        have := (lowerB_spec ms off hs _ hjlt).1 hcon
        omega
      rw [if_neg (by tauto)]
    · have hlb : lowerB ms off = ms.length := by omega
      have hmin : Nat.min (lowerB ms off) (ms.length - 1) = ms.length - 1 :=
        Nat.min_eq_right (by omega)
      rw [hmin]
      have hjlt : ms.length - 1 < ms.length := by omega
      have : (ms.getD (ms.length - 1) default).offset < off :=
        (lowerB_spec ms off hs _ hjlt).2 (by omega)
      rw [if_pos ⟨hlen, this⟩]
      omega

theorem sortedMarkers_spliceInsert_lowerB (x : HighlightMarker)
    (ms : List HighlightMarker) (hs : SortedMarkers ms) :
    SortedMarkers (spliceInsert (lowerB ms x.offset) x ms) := by
  induction ms with
  | nil => simp [lowerB, spliceInsert, SortedMarkers]
  | cons m rest ih =>
    simp only [SortedMarkers, List.pairwise_cons] at hs
    by_cases h : m.offset < x.offset
    · simp only [lowerB, if_pos h, spliceInsert]
      simp only [SortedMarkers, List.pairwise_cons]
      refine ⟨?_, ih hs.2⟩
      intro y hy
      rcases (spliceInsert_mem _ _ _ _).1 hy with rfl | hy'
      · omega
      · exact hs.1 y hy'
    · simp only [lowerB, if_neg h, spliceInsert]
      simp only [SortedMarkers, List.pairwise_cons]
      refine ⟨?_, ?_⟩
      · intro y hy
        rcases List.mem_cons.1 hy with rfl | hy'
        · omega
        · have := hs.1 y hy'
          omega
      · exact ⟨hs.1, hs.2⟩

theorem countName_length_split (ms : List HighlightMarker) (n : String) :
    ms.length = countName ms n + (ms.filter (fun m => !(m.queryName == n))).length := by
  induction ms with
  | nil => simp [countName]
  | cons m rest ih =>
    by_cases h : m.queryName = n
    · simp [countName, List.countP_cons, List.filter_cons, h] at ih ⊢
      omega
    · simp [countName, List.countP_cons, List.filter_cons, h] at ih ⊢
      omega

theorem countName_filter_ne (ms : List HighlightMarker) (n nm : String)
    (hne : nm ≠ n) :
    countName (ms.filter (fun m => !(m.queryName == n))) nm = countName ms nm := by
  induction ms with
  | nil => rfl
  | cons m rest ih =>
    by_cases h : m.queryName = n
    · have hb2 : ¬(m.queryName = nm) := by rw [h]; exact fun hc => hne hc.symm
      have hne2 : ¬(n = nm) := fun hc => hne hc.symm
      simp [List.filter_cons, countName, List.countP_cons, h, hb2, hne2] at ih ⊢
      exact ih
    · simp [List.filter_cons, countName, List.countP_cons, h] at ih ⊢
      omega

theorem length_eq_sum_countName (names : List String) :
    ∀ ms : List HighlightMarker, names.Nodup →
      (∀ m ∈ ms, m.queryName ∈ names) →
      ms.length = (names.map (fun n => countName ms n)).sum := by
  induction names with
  | nil =>
    intro ms _ hlive
    have : ms = [] := List.eq_nil_iff_forall_not_mem.2 fun m hm => by
      simpa using hlive m hm
    simp [this]
  | cons n rest ih =>
    intro ms hnd hlive
    obtain ⟨hnn, hnd'⟩ := List.nodup_cons.1 hnd
    have h1 := countName_length_split ms n
    have hlive' : ∀ m ∈ ms.filter (fun m => !(m.queryName == n)),
        m.queryName ∈ rest := by
      intro m hm
      obtain ⟨hmem, hpass⟩ := List.mem_filter.1 hm
      rcases List.mem_cons.1 (hlive m hmem) with h | h
      · exfalso
        rw [h] at hpass
        simp at hpass
      · exact h
    have h2 := ih (ms.filter (fun m => !(m.queryName == n))) hnd' hlive'
    have h3 : (rest.map (fun nm =>
          countName (ms.filter (fun m => !(m.queryName == n))) nm)).sum
        = (rest.map (fun nm => countName ms nm)).sum := by
      apply congrArg List.sum
      apply List.map_congr_left
      intro nm hnm
      exact countName_filter_ne ms n nm (fun hc => hnn (hc ▸ hnm))
    rw [List.map_cons, List.sum_cons]
    omega

theorem Inv.highlights_length {s : HH} (h : Inv s) :
    s.highlights.length = sumLengths s := by
  have hlive : ∀ m ∈ s.highlights, m.queryName ∈ s.queries.map (fun q => q.name) := by
    intro m hm
    obtain ⟨q, hq, hname⟩ := h.ownersLive m hm
    exact List.mem_map.2 ⟨q, hq, hname.symm⟩
  have := length_eq_sum_countName (s.queries.map (fun q => q.name))
    s.highlights h.nodupNames hlive
  rw [this]
  unfold sumLengths
  rw [List.map_map]
  apply congrArg List.sum
  apply List.map_congr_left
  intro q hq
  exact h.counts q hq

theorem processHits_spec (qname : String) (r : Option Int) (hits : List Hit)
    (hok : ∀ h ∈ hits, h.wrapOk = true) :
    ∀ ms count, SortedMarkers ms →
      SortedMarkers (processHits qname r hits (ms, count)).1 ∧
      count ≤ (processHits qname r hits (ms, count)).2 ∧
      (processHits qname r hits (ms, count)).1.length
        = ms.length + ((processHits qname r hits (ms, count)).2 - count) ∧
      countName (processHits qname r hits (ms, count)).1 qname
        = countName ms qname + ((processHits qname r hits (ms, count)).2 - count) ∧
      (∀ nm, nm ≠ qname →
        countName (processHits qname r hits (ms, count)).1 nm = countName ms nm) ∧
      (∀ m ∈ (processHits qname r hits (ms, count)).1, m ∈ ms ∨ m.queryName = qname) := by
  induction hits with
  | nil =>
    intro ms count hs
    have hstep : processHits qname r [] (ms, count) = (ms, count) := rfl
    rw [hstep]
    exact ⟨hs, Nat.le_refl _, by simp, by simp, fun nm _ => rfl, fun m hm => Or.inl hm⟩
  | cons h rest ih =>
    intro ms count hs
    by_cases hcap : capReached r count = true
    · have hstep : processHits qname r (h :: rest) (ms, count) = (ms, count) := by
        simp [processHits, hcap]
      rw [hstep]
      exact ⟨hs, Nat.le_refl _, by simp, by simp, fun nm _ => rfl, fun m hm => Or.inl hm⟩
    · have hwrap : h.wrapOk = true := hok h (List.mem_cons_self h rest)
      have hpos : insertPos ms h.offset = lowerB ms h.offset :=
        insertPos_eq_lowerB ms h.offset hs
      have hcapf : capReached r count = false := by
        cases hcb : capReached r count
        · rfl
        · exact absurd hcb hcap
      have hstep : processHits qname r (h :: rest) (ms, count)
          = processHits qname r rest
              (spliceInsert (lowerB ms h.offset) ⟨qname, count, h.offset⟩ ms,
               count + 1) := by
        simp [processHits, hcapf, hpos, hwrap]
      rw [hstep]
      have hs1 : SortedMarkers
          (spliceInsert (lowerB ms h.offset) ⟨qname, count, h.offset⟩ ms) :=
        sortedMarkers_spliceInsert_lowerB ⟨qname, count, h.offset⟩ ms hs
      have hrest := ih (fun x hx => hok x (List.mem_cons_of_mem h hx)) _ (count + 1) hs1
      obtain ⟨hr1, hr2, hr3, hr4, hr5, hr6⟩ := hrest
      have hlen1 : (spliceInsert (lowerB ms h.offset) ⟨qname, count, h.offset⟩ ms).length
          = ms.length + 1 := spliceInsert_length _ _ _
      have hcnt1 : countName
            (spliceInsert (lowerB ms h.offset) ⟨qname, count, h.offset⟩ ms) qname
          = countName ms qname + 1 := by
        unfold countName
        rw [spliceInsert_countP]
        simp
      refine ⟨hr1, by omega, by omega, ?_, ?_, ?_⟩
      · rw [hr4, hcnt1]; omega
      · intro nm hnm
        have hcnt2 : countName
              (spliceInsert (lowerB ms h.offset) ⟨qname, count, h.offset⟩ ms) nm
            = countName ms nm := by
          unfold countName
          rw [spliceInsert_countP]
          simp [beq_eq_false_iff_ne.2 (fun hc => hnm hc.symm)]
        rw [hr5 nm hnm, hcnt2]
      · intro m hm
        rcases hr6 m hm with hin | hname
        · rcases (spliceInsert_mem _ _ _ _).1 hin with rfl | hin'
          · exact Or.inr rfl
          · exact Or.inl hin'
        · exact Or.inr hname

theorem addQueriesLoop_spec (qname : String) (r : Option Int)
    (qs : List QueryInput) (hok : ∀ qi ∈ qs, hitsOk qi = true) :
    ∀ ms count, SortedMarkers ms →
      SortedMarkers (addQueriesLoop qname r qs (ms, count)).1 ∧
      count ≤ (addQueriesLoop qname r qs (ms, count)).2 ∧
      (addQueriesLoop qname r qs (ms, count)).1.length
        = ms.length + ((addQueriesLoop qname r qs (ms, count)).2 - count) ∧
      countName (addQueriesLoop qname r qs (ms, count)).1 qname
        = countName ms qname + ((addQueriesLoop qname r qs (ms, count)).2 - count) ∧
      (∀ nm, nm ≠ qname →
        countName (addQueriesLoop qname r qs (ms, count)).1 nm = countName ms nm) ∧
      (∀ m ∈ (addQueriesLoop qname r qs (ms, count)).1, m ∈ ms ∨ m.queryName = qname) := by
  induction qs with
  | nil =>
    intro ms count hs
    have hstep : addQueriesLoop qname r [] (ms, count) = (ms, count) := rfl
    rw [hstep]
    exact ⟨hs, Nat.le_refl _, by simp, by simp, fun nm _ => rfl, fun m hm => Or.inl hm⟩
  | cons qi rest ih =>
    intro ms count hs
    cases qi with
    | failCons =>
      have hstep : addQueriesLoop qname r (.failCons :: rest) (ms, count)
          = addQueriesLoop qname r rest (ms, count) := rfl
      rw [hstep]
      exact ih (fun x hx => hok x (List.mem_cons_of_mem _ hx)) ms count hs
    | hits l =>
      have hstep : addQueriesLoop qname r (.hits l :: rest) (ms, count)
          = addQueriesLoop qname r rest (processHits qname r l (ms, count)) := rfl
      rw [hstep]
      have hlok : ∀ h ∈ l, h.wrapOk = true := by
        have := hok (.hits l) (List.mem_cons_self _ rest)
        simp only [hitsOk, List.all_eq_true] at this
        exact this
      have hmid := processHits_spec qname r l hlok ms count hs
      obtain ⟨hm1, hm2, hm3, hm4, hm5, hm6⟩ := hmid
      have heta : processHits qname r l (ms, count)
          = ((processHits qname r l (ms, count)).1,
             (processHits qname r l (ms, count)).2) := rfl
      rw [heta]
      have hrest := ih (fun x hx => hok x (List.mem_cons_of_mem _ hx))
        (processHits qname r l (ms, count)).1 (processHits qname r l (ms, count)).2 hm1
      obtain ⟨hr1, hr2, hr3, hr4, hr5, hr6⟩ := hrest
      refine ⟨hr1, by omega, by omega, by rw [hr4, hm4]; omega, ?_, ?_⟩
      · intro nm hnm
        rw [hr5 nm hnm, hm5 nm hnm]
      · intro m hm
        rcases hr6 m hm with hin | hname
        · exact hm6 m hin
        · exact Or.inr hname

theorem countName_eq_zero_of_fresh (s : HH) (hInv : Inv s) (name : String)
    (hnot : ∀ q ∈ s.queries, q.name ≠ name) :
    countName s.highlights name = 0 := by
  unfold countName
  rw [List.countP_eq_zero]
  intro m hm
  obtain ⟨q, hq, hname⟩ := hInv.ownersLive m hm
  intro hc
  have hqn : q.name = name := by
    rw [← hname]
    exact beq_iff_eq.1 hc
  exact hnot q hq hqn

theorem inv_map_keep (s : HH) (f : QuerySet → QuerySet)
    (hname : ∀ p, (f p).name = p.name) (hlen : ∀ p, (f p).length = p.length)
    (hInv : Inv s) : Inv { s with queries := s.queries.map f } := by
  refine ⟨?_, ?_, ?_, ?_⟩
  · exact hInv.sorted
  · show ((s.queries.map f).map (fun q => q.name)).Nodup
    rw [List.map_map]
    have heq : s.queries.map ((fun q => q.name) ∘ f)
        = s.queries.map (fun q => q.name) :=
      List.map_congr_left (fun p _ => hname p)
    rw [heq]
    exact hInv.nodupNames
  · intro m hm
    obtain ⟨q, hq, h⟩ := hInv.ownersLive m hm
    exact ⟨f q, List.mem_map.2 ⟨q, hq, rfl⟩, by rw [hname q]; exact h⟩
  · intro p' hp'
    obtain ⟨p, hp, rfl⟩ := List.mem_map.1 hp'
    rw [hname p, hlen p]
    exact hInv.counts p hp

theorem remove_some_eq (s : HH) (name : String) (q : QuerySet)
    (hfind : s.queries.find? (fun q => q.name == name) = some q) :
    remove_ s name =
      ({ s with
          stats := { s.stats with
            queries := s.stats.queries - 1
            total := s.stats.total - (q.length : Int) }
          highlights := s.highlights.filter (fun m => !(m.queryName == name))
          queries := s.queries.filter (fun p => !(p.name == name)) },
       none) := by
  unfold remove_
  rw [hfind]

theorem remove_none_eq (s : HH) (name : String)
    (hfind : s.queries.find? (fun q => q.name == name) = none) :
    remove_ s name = (s, some .setNonexistent) := by
  unfold remove_
  rw [hfind]

theorem remove_inv (s : HH) (name : String) (hInv : Inv s) :
    Inv (remove_ s name).1 ∧ ∀ p ∈ (remove_ s name).1.queries, p.name ≠ name := by
  cases hfind : s.queries.find? (fun q => q.name == name) with
  | none =>
    rw [remove_none_eq s name hfind]
    refine ⟨hInv, fun p hp => ?_⟩
    have := List.find?_eq_none.1 hfind p hp
    simpa using this
  | some q =>
    rw [remove_some_eq s name q hfind]
    refine ⟨⟨?_, ?_, ?_, ?_⟩, ?_⟩
    · exact List.Pairwise.sublist (List.filter_sublist _) hInv.sorted
    · have hsub : List.Sublist
          ((s.queries.filter (fun p => !(p.name == name))).map (fun q => q.name))
          (s.queries.map (fun q => q.name)) :=
        (List.filter_sublist _).map _
      exact List.Nodup.sublist hsub hInv.nodupNames
    · intro m hm
      obtain ⟨hmem, hpass⟩ := List.mem_filter.1 hm
      obtain ⟨p, hp, hname⟩ := hInv.ownersLive m hmem
      refine ⟨p, List.mem_filter.2 ⟨hp, ?_⟩, hname⟩
      have hne : ¬(m.queryName = name) := by simpa using hpass
      simp only [Bool.not_eq_true']
      exact beq_eq_false_iff_ne.2 (by rw [← hname]; exact hne)
    · intro p hp
      obtain ⟨hpmem, hppass⟩ := List.mem_filter.1 hp
      have hppne : p.name ≠ name := by simpa using hppass
      show countName (s.highlights.filter (fun m => !(m.queryName == name))) p.name
        = p.length
      rw [countName_filter_ne _ name p.name hppne]
      exact hInv.counts p hpmem
    · intro p hp
      exact by simpa using (List.mem_filter.1 hp).2

theorem inv_append_fresh (s : HH) (hInv : Inv s) (q : QuerySet)
    (hlen : q.length = 0)
    (hfresh : ∀ p ∈ s.queries, p.name ≠ q.name) :
    Inv { s with queries := s.queries ++ [q] } := by
  constructor
  · exact hInv.sorted
  · show ((s.queries ++ [q]).map (fun p => p.name)).Nodup
    rw [List.map_append]
    rw [List.nodup_append]
    refine ⟨hInv.nodupNames, List.nodup_singleton _, ?_⟩
    intro a ha hb
    obtain ⟨p, hp, rfl⟩ := List.mem_map.1 ha
    have : p.name = q.name := by simpa using hb
    exact hfresh p hp this
  · intro m hm
    obtain ⟨p, hp, h⟩ := hInv.ownersLive m hm
    exact ⟨p, List.mem_append.2 (Or.inl hp), h⟩
  · intro p hp
    rcases List.mem_append.1 hp with hp' | hp'
    · exact hInv.counts p hp'
    · have hpq : p = q := by simpa using hp'
      subst hpq
      rw [hlen]
      exact countName_eq_zero_of_fresh s hInv p.name hfresh

theorem add_queries_eq (s : HH) (q : QuerySet) (queries : List QueryInput)
    (enabled : Bool) :
    add_queries_ s q queries enabled
      = ({ s with
            highlights :=
              (addQueriesLoop q.name (effectiveReserve q) queries (s.highlights, 0)).1
            queries := s.queries.map (fun p =>
              if p.name == q.name then
                { p with length := p.length
                    + (addQueriesLoop q.name (effectiveReserve q) queries (s.highlights, 0)).2 }
              else p)
            stats :=
              if enabled then
                { s.stats with total := s.stats.total
                    + ((addQueriesLoop q.name (effectiveReserve q) queries (s.highlights, 0)).2 : Int) }
              else s.stats },
         (addQueriesLoop q.name (effectiveReserve q) queries (s.highlights, 0)).2) := rfl

theorem add_queries_inv (s : HH) (q : QuerySet) (queries : List QueryInput)
    (enabled : Bool) (hq : q ∈ s.queries) (hInv : Inv s)
    (hok : ∀ qi ∈ queries, hitsOk qi = true) :
    Inv (add_queries_ s q queries enabled).1 := by
  rw [add_queries_eq]
  dsimp only
  obtain ⟨hsorted, hle, hlen, hcnt, hother, hmem⟩ :=
    addQueriesLoop_spec q.name (effectiveReserve q) queries hok s.highlights 0
      hInv.sorted
  constructor
  · exact hsorted
  · show ((s.queries.map _).map (fun p : QuerySet => p.name)).Nodup
    rw [List.map_map]
    have heq : ∀ p : QuerySet,
        ((fun p : QuerySet => p.name) ∘ (fun p : QuerySet =>
          if p.name == q.name then
            { p with length := p.length
                + (addQueriesLoop q.name (effectiveReserve q) queries (s.highlights, 0)).2 }
          else p)) p = p.name := by
      intro p
      simp only [Function.comp]
      split <;> rfl
    rw [List.map_congr_left (fun p _ => heq p)]
    exact hInv.nodupNames
  · intro m hm
    rcases hmem m hm with hin | hname
    · obtain ⟨p, hp, h⟩ := hInv.ownersLive m hin
      refine ⟨_, List.mem_map.2 ⟨p, hp, rfl⟩, ?_⟩
      split <;> exact h
    · refine ⟨_, List.mem_map.2 ⟨q, hq, rfl⟩, ?_⟩
      split <;> exact hname
  · intro p' hp'
    obtain ⟨p, hp, rfl⟩ := List.mem_map.1 hp'
    by_cases hpq : p.name = q.name
    · have hb : (p.name == q.name) = true := beq_iff_eq.2 hpq
      have hpeq : p = q := List.inj_on_of_nodup_map hInv.nodupNames hp hq hpq
      rw [if_pos hb]
      show countName _ p.name = p.length + _
      subst hpeq
      rw [hcnt, hInv.counts p hp]
      omega
    · have hb : ¬((p.name == q.name) = true) := by simpa using hpq
      rw [if_neg hb]
      show countName _ p.name = p.length
      rw [hother p.name hpq, hInv.counts p hp]

theorem addStage1_inv (s : HH) (name : String) (hInv : Inv s) :
    Inv (addStage1 s name) ∧ ∀ p ∈ (addStage1 s name).queries, p.name ≠ name := by
  unfold addStage1
  by_cases hany : s.queries.any (fun q => q.name == name) = true
  · rw [if_pos hany]
    exact remove_inv s name hInv
  · rw [if_neg hany]
    refine ⟨hInv, fun p hp => ?_⟩
    intro hc
    exact hany (List.any_eq_true.2 ⟨p, hp, beq_iff_eq.2 hc⟩)

theorem addStage3_inv (s3 : HH) (name : String) (r : Option Int) (c : Nat)
    (hInv : Inv s3) : Inv (addStage3 s3 name r c) := by
  cases r with
  | none =>
    simp only [addStage3]
    exact hInv
  | some r =>
    simp only [addStage3]
    by_cases hc : (c : Int) < r
    · rw [if_pos hc]
      refine inv_map_keep s3 _ ?_ ?_ hInv
      · intro p; split <;> rfl
      · intro p; split <;> rfl
    · rw [if_neg hc]
      refine inv_map_keep s3 _ ?_ ?_ hInv
      · intro p; split <;> rfl
      · intro p; split <;> rfl

theorem deferred_add_inv (s : HH) (name : String) (qa : QueriesArg)
    (enabled : Bool) (ra : Option Int) (hInv : Inv s)
    (hok : actionWrapsOk (.add name qa enabled ra) = true) :
    Inv (deferred_add_ s name qa enabled ra).1 := by
  cases qa with
  | notArray => exact hInv
  | arr queries =>
    have hqok : ∀ qi ∈ queries, hitsOk qi = true := by
      simp only [actionWrapsOk, List.all_eq_true] at hok
      exact hok
    obtain ⟨hInv1, hfresh1⟩ := addStage1_inv s name hInv
    have hInv2 : Inv { addStage1 s name with
        queries := (addStage1 s name).queries ++ [freshQ (addStage1 s name) name enabled] } :=
      inv_append_fresh _ hInv1 _ rfl hfresh1
    have hqmem : freshQ (addStage1 s name) name enabled
        ∈ ({ addStage1 s name with
            queries := (addStage1 s name).queries
              ++ [freshQ (addStage1 s name) name enabled] } : HH).queries := by
      simp
    have hInv3 := add_queries_inv _ _ queries enabled hqmem hInv2 hqok
    exact addStage3_inv
      (add_queries_ { addStage1 s name with
          queries := (addStage1 s name).queries ++ [freshQ (addStage1 s name) name enabled] }
        (freshQ (addStage1 s name) name enabled) queries enabled).1
      name (normReserve ra)
      (add_queries_ { addStage1 s name with
          queries := (addStage1 s name).queries ++ [freshQ (addStage1 s name) name enabled] }
        (freshQ (addStage1 s name) name enabled) queries enabled).2
      hInv3

theorem deferred_append_inv (s : HH) (name : String) (qa : QueriesArg)
    (enabled : Bool) (hInv : Inv s)
    (hok : actionWrapsOk (.append name qa enabled) = true) :
    Inv (deferred_append_ s name qa enabled).1 := by
  cases qa with
  | notArray => exact hInv
  | arr queries =>
    have hqok : ∀ qi ∈ queries, hitsOk qi = true := by
      simp only [actionWrapsOk, List.all_eq_true] at hok
      exact hok
    cases hfind : s.queries.find? (fun q => q.name == name) with
    | none =>
      simp only [deferred_append_, hfind]
      exact hInv
    | some q =>
      simp only [deferred_append_, hfind]
      exact add_queries_inv s q queries enabled
        (List.mem_of_find?_eq_some hfind) hInv hqok

theorem deferred_enable_inv (s : HH) (name : String) (hInv : Inv s) :
    Inv (deferred_enable_ s name).1 := by
  cases hfind : s.queries.find? (fun q => q.name == name) with
  | none =>
    simp only [deferred_enable_, hfind]
    exact hInv
  | some q =>
    simp only [deferred_enable_, hfind]
    by_cases hen : q.enabled = true
    · rw [if_pos hen]
      exact hInv
    · rw [if_neg hen]
      refine inv_map_keep s _ ?_ ?_ hInv
      · intro p; split <;> rfl
      · intro p; split <;> rfl

theorem deferred_disable_inv (s : HH) (name : String) (hInv : Inv s) :
    Inv (deferred_disable_ s name).1 := by
  cases hfind : s.queries.find? (fun q => q.name == name) with
  | none =>
    simp only [deferred_disable_, hfind]
    exact hInv
  | some q =>
    simp only [deferred_disable_, hfind]
    by_cases hen : (!q.enabled) = true
    · rw [if_pos hen]
      exact hInv
    · rw [if_neg hen]
      refine inv_map_keep s _ ?_ ?_ hInv
      · intro p; split <;> rfl
      · intro p; split <;> rfl

theorem foldl_remove_inv (names : List String) :
    ∀ s : HH, Inv s → Inv (names.foldl (fun st n => (remove_ st n).1) s) := by
  induction names with
  | nil => exact fun s hInv => hInv
  | cons n rest ih =>
    intro s hInv
    exact ih _ (remove_inv s n hInv).1

theorem deferred_clear_inv (s : HH) (reset : Bool) (hInv : Inv s) :
    Inv (deferred_clear_ s reset).1 := by
  simp only [deferred_clear_]
  have hInv1 := foldl_remove_inv (s.queries.map (fun q => q.name)) s hInv
  by_cases hemp : ((s.queries.map (fun q => q.name)).foldl
      (fun st n => (remove_ st n).1) s).queries.isEmpty = true
  · rw [if_pos hemp]
    cases reset with
    | false => exact hInv1
    | true => exact hInv1
  · rw [if_neg hemp]
    exact hInv1

theorem runAction_inv (a : Action) (s : HH) (hInv : Inv s)
    (hok : actionWrapsOk a = true) : Inv (runAction a s).1 := by
  cases a with
  | add name qa enabled reserve => exact deferred_add_inv s name qa enabled reserve hInv hok
  | append name qa enabled => exact deferred_append_inv s name qa enabled hInv hok
  | remove name => exact (remove_inv s name hInv).1
  | enable name => exact deferred_enable_inv s name hInv
  | disable name => exact deferred_disable_inv s name hInv
  | clear reset => exact deferred_clear_inv s reset hInv

theorem foldl_applyStep_inv (ts : List Action) :
    ∀ s : HH, Inv s → txWrapsOk ts = true → Inv (ts.foldl applyStep s) := by
  induction ts with
  | nil => exact fun s hInv _ => hInv
  | cons a rest ih =>
    intro s hInv hok
    simp only [txWrapsOk, List.all_eq_true] at hok
    refine ih _ (runAction_inv a s hInv (hok a (List.mem_cons_self a rest))) ?_
    simp only [txWrapsOk, List.all_eq_true]
    exact fun x hx => hok x (List.mem_cons_of_mem a hx)

theorem apply_inv (f : HHFull) (hInv : Inv f.hh) (hok : txWrapsOk f.transaction = true) :
    Inv (apply f).hh := by
  unfold apply
  by_cases hemp : f.transaction.isEmpty = true
  · rw [if_pos hemp]
    exact hInv
  · rw [if_neg hemp]
    exact foldl_applyStep_inv f.transaction f.hh hInv hok

theorem deferred_append_none_eq (s : HH) (name : String)
    (queries : List QueryInput) (enabled : Bool)
    (hfind : s.queries.find? (fun q => q.name == name) = none) :
    deferred_append_ s name (.arr queries) enabled = (s, some .setNotCreated) := by
  unfold deferred_append_
  rw [hfind]

theorem deferred_append_some_eq (s : HH) (name : String)
    (queries : List QueryInput) (enabled : Bool) (q : QuerySet)
    (hfind : s.queries.find? (fun q => q.name == name) = some q) :
    deferred_append_ s name (.arr queries) enabled
      = ((add_queries_ s q queries enabled).1, none) := by
  unfold deferred_append_
  rw [hfind]

theorem deferred_enable_none_eq (s : HH) (name : String)
    (hfind : s.queries.find? (fun q => q.name == name) = none) :
    deferred_enable_ s name = (s, some .setNonexistent) := by
  unfold deferred_enable_
  rw [hfind]

theorem deferred_enable_some_eq (s : HH) (name : String) (q : QuerySet)
    (hfind : s.queries.find? (fun q => q.name == name) = some q) :
    deferred_enable_ s name =
      if q.enabled then (s, none)
      else
        ({ s with
            queries := s.queries.map (fun p =>
              if p.name == name then { p with enabled := true } else p)
            stats := { s.stats with total := s.stats.total + (q.length : Int) } },
         none) := by
  unfold deferred_enable_
  rw [hfind]

theorem deferred_disable_none_eq (s : HH) (name : String)
    (hfind : s.queries.find? (fun q => q.name == name) = none) :
    deferred_disable_ s name = (s, some .setNonexistent) := by
  unfold deferred_disable_
  rw [hfind]

theorem deferred_disable_some_eq (s : HH) (name : String) (q : QuerySet)
    (hfind : s.queries.find? (fun q => q.name == name) = some q) :
    deferred_disable_ s name =
      if !q.enabled then (s, none)
      else
        ({ s with
            queries := s.queries.map (fun p =>
              if p.name == name then { p with enabled := false } else p)
            stats := { s.stats with total := s.stats.total - (q.length : Int) } },
         none) := by
  unfold deferred_disable_
  rw [hfind]

theorem remove_maxHighlight (s : HH) (name : String) :
    (remove_ s name).1.maxHighlight = s.maxHighlight := by
  cases hfind : s.queries.find? (fun q => q.name == name) with
  | none => rw [remove_none_eq s name hfind]
  | some q => rw [remove_some_eq s name q hfind]

theorem remove_stats_highlight (s : HH) (name : String) :
    (remove_ s name).1.stats.highlight = s.stats.highlight := by
  cases hfind : s.queries.find? (fun q => q.name == name) with
  | none => rw [remove_none_eq s name hfind]
  | some q => rw [remove_some_eq s name q hfind]

theorem addStage1_maxHighlight (s : HH) (name : String) :
    (addStage1 s name).maxHighlight = s.maxHighlight := by
  unfold addStage1
  split
  · exact remove_maxHighlight s name
  · rfl

theorem addStage1_stats_highlight (s : HH) (name : String) :
    (addStage1 s name).stats.highlight = s.stats.highlight := by
  unfold addStage1
  split
  · exact remove_stats_highlight s name
  · rfl

theorem add_queries_maxHighlight (s : HH) (q : QuerySet)
    (queries : List QueryInput) (enabled : Bool) :
    (add_queries_ s q queries enabled).1.maxHighlight = s.maxHighlight := by
  rw [add_queries_eq]

theorem add_queries_stats_highlight (s : HH) (q : QuerySet)
    (queries : List QueryInput) (enabled : Bool) :
    (add_queries_ s q queries enabled).1.stats.highlight = s.stats.highlight := by
  rw [add_queries_eq]
  dsimp only
  split <;> rfl

theorem addStage3_maxHighlight (s3 : HH) (name : String) (r : Option Int) (c : Nat) :
    (addStage3 s3 name r c).maxHighlight = s3.maxHighlight := by
  cases r with
  | none => rfl
  | some r =>
    simp only [addStage3]
    split <;> rfl

theorem addStage3_stats_highlight (s3 : HH) (name : String) (r : Option Int) (c : Nat) :
    (addStage3 s3 name r c).stats.highlight = s3.stats.highlight := by
  cases r with
  | none => rfl
  | some r =>
    simp only [addStage3]
    split <;> rfl

theorem deferred_add_highlight (s : HH) (name : String) (queries : List QueryInput)
    (enabled : Bool) (ra : Option Int) :
    (deferred_add_ s name (.arr queries) enabled ra).1.stats.highlight
      = stepHighlight s.stats.highlight s.maxHighlight ∧
    (deferred_add_ s name (.arr queries) enabled ra).1.maxHighlight = s.maxHighlight := by
  have hmain : (deferred_add_ s name (.arr queries) enabled ra).1
      = addStage4 (addStage3
          (add_queries_ { addStage1 s name with
              queries := (addStage1 s name).queries
                ++ [freshQ (addStage1 s name) name enabled] }
            (freshQ (addStage1 s name) name enabled) queries enabled).1
          name (normReserve ra)
          (add_queries_ { addStage1 s name with
              queries := (addStage1 s name).queries
                ++ [freshQ (addStage1 s name) name enabled] }
            (freshQ (addStage1 s name) name enabled) queries enabled).2) := rfl
  rw [hmain]
  have h3m := addStage3_maxHighlight
    (add_queries_ { addStage1 s name with
        queries := (addStage1 s name).queries
          ++ [freshQ (addStage1 s name) name enabled] }
      (freshQ (addStage1 s name) name enabled) queries enabled).1
    name (normReserve ra)
    (add_queries_ { addStage1 s name with
        queries := (addStage1 s name).queries
          ++ [freshQ (addStage1 s name) name enabled] }
      (freshQ (addStage1 s name) name enabled) queries enabled).2
  have h3h := addStage3_stats_highlight
    (add_queries_ { addStage1 s name with
        queries := (addStage1 s name).queries
          ++ [freshQ (addStage1 s name) name enabled] }
      (freshQ (addStage1 s name) name enabled) queries enabled).1
    name (normReserve ra)
    (add_queries_ { addStage1 s name with
        queries := (addStage1 s name).queries
          ++ [freshQ (addStage1 s name) name enabled] }
      (freshQ (addStage1 s name) name enabled) queries enabled).2
  have h2m := add_queries_maxHighlight
    { addStage1 s name with
      queries := (addStage1 s name).queries ++ [freshQ (addStage1 s name) name enabled] }
    (freshQ (addStage1 s name) name enabled) queries enabled
  have h2h := add_queries_stats_highlight
    { addStage1 s name with
      queries := (addStage1 s name).queries ++ [freshQ (addStage1 s name) name enabled] }
    (freshQ (addStage1 s name) name enabled) queries enabled
  have h1m := addStage1_maxHighlight s name
  have h1h := addStage1_stats_highlight s name
  show (stepHighlight _ _ = _) ∧ (_ = _)
  constructor
  · show stepHighlight (addStage3 _ name (normReserve ra) _).stats.highlight
        (addStage3 _ name (normReserve ra) _).maxHighlight = _
    rw [h3m, h3h, h2m, h2h]
    show stepHighlight (addStage1 s name).stats.highlight
        (addStage1 s name).maxHighlight = _
    rw [h1m, h1h]
  · show (addStage3 _ name (normReserve ra) _).maxHighlight = _
    rw [h3m, h2m]
    exact h1m

theorem stepHighlight_eq_mod (h m : Nat) (hm : h < m) :
    stepHighlight h m = (h + 1) % m := by
  unfold stepHighlight
  by_cases hge : h + 1 ≥ m
  · rw [if_pos hge]
    have hs : h + 1 = m := by omega
    rw [hs, Nat.mod_self]
  · rw [if_neg hge]
    rw [Nat.mod_eq_of_lt (by omega)]

theorem stepHighlight_lt (h m : Nat) (hm : 1 ≤ m) : stepHighlight h m < m := by
  unfold stepHighlight
  split <;> omega

theorem foldl_remove_highlight (names : List String) :
    ∀ s : HH,
      ((names.foldl (fun st n => (remove_ st n).1) s).stats.highlight
          = s.stats.highlight
        ∧ (names.foldl (fun st n => (remove_ st n).1) s).maxHighlight
          = s.maxHighlight) := by
  induction names with
  | nil => exact fun s => ⟨rfl, rfl⟩
  | cons n rest ih =>
    intro s
    have hstep := ih (remove_ s n).1
    refine ⟨?_, ?_⟩
    · rw [List.foldl_cons, hstep.1, remove_stats_highlight]
    · rw [List.foldl_cons, hstep.2, remove_maxHighlight]

theorem runAction_highlight (a : Action) (s : HH) (hmax : 1 ≤ s.maxHighlight)
    (hlt : s.stats.highlight < s.maxHighlight) :
    (runAction a s).1.maxHighlight = s.maxHighlight ∧
    (runAction a s).1.stats.highlight < s.maxHighlight := by
  cases a with
  | add name qa enabled reserve =>
    cases qa with
    | notArray => exact ⟨rfl, hlt⟩
    | arr queries =>
      obtain ⟨hh, hm⟩ := deferred_add_highlight s name queries enabled reserve
      refine ⟨hm, ?_⟩
      rw [show (runAction (.add name (.arr queries) enabled reserve) s).1.stats.highlight
          = stepHighlight s.stats.highlight s.maxHighlight from hh]
      exact stepHighlight_lt _ _ hmax
  | append name qa enabled =>
    cases qa with
    | notArray => exact ⟨rfl, hlt⟩
    | arr queries =>
      show ((deferred_append_ s name (.arr queries) enabled).1.maxHighlight
          = s.maxHighlight)
        ∧ (deferred_append_ s name (.arr queries) enabled).1.stats.highlight
          < s.maxHighlight
      cases hfind : s.queries.find? (fun q => q.name == name) with
      | none =>
        rw [deferred_append_none_eq s name queries enabled hfind]
        exact ⟨rfl, hlt⟩
      | some q =>
        rw [deferred_append_some_eq s name queries enabled q hfind]
        dsimp only
        rw [add_queries_maxHighlight, add_queries_stats_highlight]
        exact ⟨rfl, hlt⟩
  | remove name =>
    show ((remove_ s name).1.maxHighlight = s.maxHighlight)
      ∧ (remove_ s name).1.stats.highlight < s.maxHighlight
    rw [remove_maxHighlight, remove_stats_highlight]
    exact ⟨rfl, hlt⟩
  | enable name =>
    show ((deferred_enable_ s name).1.maxHighlight = s.maxHighlight)
      ∧ (deferred_enable_ s name).1.stats.highlight < s.maxHighlight
    cases hfind : s.queries.find? (fun q => q.name == name) with
    | none =>
      rw [deferred_enable_none_eq s name hfind]
      exact ⟨rfl, hlt⟩
    | some q =>
      rw [deferred_enable_some_eq s name q hfind]
      split
      · exact ⟨rfl, hlt⟩
      · exact ⟨rfl, hlt⟩
  | disable name =>
    show ((deferred_disable_ s name).1.maxHighlight = s.maxHighlight)
      ∧ (deferred_disable_ s name).1.stats.highlight < s.maxHighlight
    cases hfind : s.queries.find? (fun q => q.name == name) with
    | none =>
      rw [deferred_disable_none_eq s name hfind]
      exact ⟨rfl, hlt⟩
    | some q =>
      rw [deferred_disable_some_eq s name q hfind]
      split
      · exact ⟨rfl, hlt⟩
      · exact ⟨rfl, hlt⟩
  | clear reset =>
    show ((deferred_clear_ s reset).1.maxHighlight = s.maxHighlight)
      ∧ (deferred_clear_ s reset).1.stats.highlight < s.maxHighlight
    simp only [deferred_clear_]
    obtain ⟨hfh, hfm⟩ := foldl_remove_highlight (s.queries.map (fun q => q.name)) s
    split
    · cases reset with
      | false => exact ⟨hfm, lt_of_le_of_lt (le_of_eq hfh) hlt⟩
      | true =>
        refine ⟨hfm, ?_⟩
        show (0 : Nat) < s.maxHighlight
        omega
    · exact ⟨hfm, lt_of_le_of_lt (le_of_eq hfh) hlt⟩

theorem foldl_applyStep_highlight (ts : List Action) :
    ∀ s : HH, 1 ≤ s.maxHighlight → s.stats.highlight < s.maxHighlight →
      (ts.foldl applyStep s).maxHighlight = s.maxHighlight ∧
      (ts.foldl applyStep s).stats.highlight < s.maxHighlight := by
  induction ts with
  | nil => exact fun s _ h => ⟨rfl, h⟩
  | cons a rest ih =>
    intro s hmax hlt
    obtain ⟨hm, hh⟩ := runAction_highlight a s hmax hlt
    have := ih (applyStep s a) (by rw [show (applyStep s a).maxHighlight
        = s.maxHighlight from hm]; exact hmax)
      (by rw [show (applyStep s a).maxHighlight = s.maxHighlight from hm] at *; exact hh)
    rw [List.foldl_cons]
    have hm' : (applyStep s a).maxHighlight = s.maxHighlight := hm
    exact ⟨by rw [this.1, hm'], by rw [← hm']; exact this.2⟩

theorem inv_init (maxH : Nat) : Inv (initHH maxH) := by
  refine ⟨?_, ?_, ?_, ?_⟩
  · exact List.Pairwise.nil
  · exact List.nodup_nil
  · intro m hm
    simp [initHH] at hm
  · intro q hq
    simp [initHH] at hq

/-- C1: the claim says a wrap failure leaves no marker-list entry for the
hit and does not advance the set's `length`.  The code indeed does not
advance `length`, but it splices the marker in *before* attempting the wrap
and never removes it on failure: after one `add` of one hit whose wrap
throws, the hit's entry is still in the global marker list, and the code's
own `assert_` fails with a length mismatch. -/
theorem C1_wrap_failure_marker_remains :
    ((runAction (.add "x" (.arr [.hits [⟨0, false⟩]]) true none) (initHH 5)).1.highlights
        = [⟨"x", 0, 0⟩])
    ∧ ((getQ (runAction (.add "x" (.arr [.hits [⟨0, false⟩]]) true none) (initHH 5)).1
          "x").map (fun q => q.length) = some 0)
    ∧ assertOk (runAction (.add "x" (.arr [.hits [⟨0, false⟩]]) true none) (initHH 5)).1
        = false := by
  decide

/-- C2: the claim says removing a disabled query set leaves `stats.total`
unchanged.  `remove_` subtracts `q.length` unconditionally: adding a
disabled set with one highlight and removing it drives `stats.total` to
`-1`, while the sum of lengths over enabled sets is `0`. -/
theorem C2_remove_disabled_breaks_total :
    ((apply ⟨initHH 5, [.add "x" (.arr [.hits [⟨0, true⟩]]) false none,
        .remove "x"]⟩).hh.stats.total = -1)
    ∧ enabledTotal (apply ⟨initHH 5, [.add "x" (.arr [.hits [⟨0, true⟩]]) false none,
        .remove "x"]⟩).hh = 0
    ∧ (apply ⟨initHH 5, [.add "x" (.arr [.hits [⟨0, true⟩]]) false none,
        .remove "x"]⟩).hh.queries = [] := by
  decide

/-- C3: the claim says an `add` with reserve 5 and ten hits wraps exactly
five and advances `lastId` by five.  During the initial `add`,
`add_queries_` reads the cap from `q.reserve`, which `deferred_add_` only
assigns *after* it returns — so all ten hits are wrapped and counted, the
set's `reserve` ends up as 10, and `lastId` is not advanced at all (the
`lastId += count` branch is skipped whenever a reserve was supplied). -/
theorem C3_reserve_not_enforced_on_add :
    ((getQ c3run "x").map (fun q => q.length) = some 10)
    ∧ c3run.highlights.length = 10
    ∧ c3run.lastId = 0
    ∧ ((getQ c3run "x").map (fun q => q.reserve) = some (some 10)) := by
  decide

/-- C4: the claim says `nextId` is advanced *by* `reserve` (becoming its
previous value plus `reserve`) when `reserve > count`.  The code assigns
`this.lastId = reserve`, discarding the previous value: after a first set
takes `lastId` to 2, an `add` with reserve 5 and one hit leaves `lastId` at
5 — not 2 + 5 = 7 — so the next set's ids would collide with the reserved
range of set "b", which starts at id 2. -/
theorem C4_lastId_assigned_not_advanced :
    c4run.hh.lastId = 5
    ∧ ((getQ c4run.hh "a").map (fun q => q.id) = some 0)
    ∧ ((getQ c4run.hh "b").map (fun q => q.id) = some 2) := by
  decide

/-- C5 counterexample: the claim says equal-offset markers are inserted
*after* the existing equal entries.  The binary search returns the first
index whose stored offset is `≥` the new offset and the splice inserts
there, i.e. *before* the equal entries: with set "a" already holding a
marker at offset 5, adding set "b" at offset 5 puts "b"'s marker first;
`insertPos` on the one-element list is 0, not 1. -/
theorem C5_counterexample_tie_inserts_before :
    ((apply ⟨initHH 5,
        [.add "a" (.arr [.hits [⟨5, true⟩]]) true none,
         .add "b" (.arr [.hits [⟨5, true⟩]]) true none]⟩).hh.highlights
      = [⟨"b", 0, 5⟩, ⟨"a", 0, 5⟩])
    ∧ insertPos [⟨"a", 0, 5⟩] 5 = 0 := by
  decide

/-- C5 (amended): every marker is inserted at the first index whose stored
offset is `≥` the new offset — the lower bound, i.e. *before* any
equal-offset entries — so from any state satisfying the registry invariant,
after `apply` the marker list is non-decreasing by offset, and when every
wrap succeeds its length equals the sum of `q.length` over all query
sets. -/
theorem C5_sorted_insertion (f : HHFull) (hInv : Inv f.hh)
    (hok : txWrapsOk f.transaction = true) :
    (∀ ms off, SortedMarkers ms → insertPos ms off = lowerB ms off)
    ∧ SortedMarkers (apply f).hh.highlights
    ∧ (apply f).hh.highlights.length = sumLengths (apply f).hh := by
  refine ⟨fun ms off hs => insertPos_eq_lowerB ms off hs, ?_, ?_⟩
  · exact (apply_inv f hInv hok).sorted
  · exact (apply_inv f hInv hok).highlights_length

theorem C5_sorted_insertion_witness :
    SortedMarkers (apply ⟨initHH 5,
        [.add "a" (.arr [.hits [⟨5, true⟩, ⟨2, true⟩]]) true none]⟩).hh.highlights
    ∧ (apply ⟨initHH 5,
        [.add "a" (.arr [.hits [⟨5, true⟩, ⟨2, true⟩]]) true none]⟩).hh.highlights.length
      = sumLengths (apply ⟨initHH 5,
        [.add "a" (.arr [.hits [⟨5, true⟩, ⟨2, true⟩]]) true none]⟩).hh := by
  have h := C5_sorted_insertion
    ⟨initHH 5, [.add "a" (.arr [.hits [⟨5, true⟩, ⟨2, true⟩]]) true none]⟩
    (inv_init 5) (by decide)
  exact ⟨h.2.1, h.2.2⟩

/-- C6 counterexample: the claim says the same-node length is
`|focusOffset − anchorOffset|` and right-to-left selections yield the same
Range as the equivalent left-to-right selection.  The code computes the
*signed* difference `focusOffset − anchorOffset` and rejects it when
non-positive: the right-to-left selection (anchor 5, focus 2) of one text
node returns `null`, while the equivalent left-to-right selection (anchor
2, focus 5) returns a Range. -/
theorem C6_counterexample_rtl_same_node :
    getSelectedRange (some c6rtl) c6tc = .ok none
    ∧ getSelectedRange (some c6ltr) c6tc
      = .ok (some ⟨⟨⟨10, 0, 20⟩, 2⟩, ⟨⟨10, 0, 20⟩, 4⟩⟩) :=
  ⟨rfl, rfl⟩

/-- C6 (amended): the same-node length is the *signed* difference
`focusOffset − anchorOffset` (cross-node: the host-selection string
length), so only selections with anchor before focus yield a Range:
(i) a same-node left-to-right selection yields a Range whose end offset is
the start offset plus length minus one; (ii) a same-node right-to-left
selection returns `null`; (iii) a cross-node forward selection yields
`descriptorRel` positions with end offset `focusOffset − 1`; and (iv) a
cross-node right-to-left selection is not normalized — it raises a
`TypeError`, because the code passes the freshly built position descriptor
to `content.at`, which expects a marker index. -/
theorem C6_selection_orientation (sel : SelectionModel) (tc : TextContentModel)
    (hA : sel.anchorNode.nodeType = 3) (hF : sel.focusNode.nodeType = 3) :
    (sel.anchorNode.nodeId = sel.focusNode.nodeId →
      ∀ m, tcAt tc (tcFind tc sel.anchorNode.nodeId).toNat = some m →
        0 ≤ tcFind tc sel.anchorNode.nodeId →
        ((sel.anchorOffset < sel.focusOffset →
          getSelectedRange (some sel) tc = .ok (some
            ⟨descriptorRel m (sel.anchorOffset : Int),
             { marker := (descriptorRel m (sel.anchorOffset : Int)).marker
               offset := (descriptorRel m (sel.anchorOffset : Int)).offset
                 + ((sel.focusOffset : Int) - (sel.anchorOffset : Int)) - 1 }⟩))
        ∧ (sel.focusOffset ≤ sel.anchorOffset →
            getSelectedRange (some sel) tc = .ok none)))
    ∧ (sel.anchorNode.nodeId ≠ sel.focusNode.nodeId → 0 < sel.toStringLen →
      ∀ ma mf, tcAt tc (tcFind tc sel.anchorNode.nodeId).toNat = some ma →
        tcAt tc (tcFind tc sel.focusNode.nodeId).toNat = some mf →
        0 ≤ tcFind tc sel.anchorNode.nodeId →
        0 ≤ tcFind tc sel.focusNode.nodeId →
        ((tcFind tc sel.anchorNode.nodeId < tcFind tc sel.focusNode.nodeId →
          getSelectedRange (some sel) tc = .ok (some
            ⟨descriptorRel ma (sel.anchorOffset : Int),
             descriptorRel mf ((sel.focusOffset : Int) - 1)⟩))
        ∧ (tcFind tc sel.focusNode.nodeId < tcFind tc sel.anchorNode.nodeId →
          getSelectedRange (some sel) tc = .error .typeError))) := by
  have hnotnt : ¬(sel.anchorNode.nodeType ≠ 3 ∨ sel.focusNode.nodeType ≠ 3) := by
    simp [hA, hF]
  constructor
  · intro hsame m hm hge
    constructor
    · intro hfw
      simp only [getSelectedRange]
      rw [if_neg hnotnt, if_pos hsame, if_pos hsame.symm]
      rw [if_neg (by omega)]
      rw [if_neg (by omega)]
      rw [if_pos (Or.inr ⟨rfl, hfw⟩)]
      simp only [hm]
      rw [if_pos hsame.symm]
    · intro hbk
      simp only [getSelectedRange]
      rw [if_neg hnotnt, if_pos hsame]
      rw [if_pos (by omega)]
  · intro hne hlen ma mf hma hmf hgea hgef
    have hne' : ¬(sel.focusNode.nodeId = sel.anchorNode.nodeId) :=
      fun hc => hne hc.symm
    constructor
    · intro hlt
      simp only [getSelectedRange]
      rw [if_neg hnotnt, if_neg hne, if_neg hne']
      rw [if_neg (by omega)]
      rw [if_neg (by omega)]
      rw [if_pos (Or.inl hlt)]
      simp only [hma]
      rw [if_neg hne']
      simp only [hmf]
    · intro hlt
      simp only [getSelectedRange]
      rw [if_neg hnotnt, if_neg hne, if_neg hne']
      rw [if_neg (by omega)]
      rw [if_neg (by omega)]
      rw [if_neg (by omega)]
      simp only [hmf]
      rw [if_neg hne']

theorem C6_selection_orientation_witness :
    getSelectedRange (some c6ltr) c6tc
      = .ok (some ⟨descriptorRel ⟨10, 0, 20⟩ (2 : Int),
          { marker := (descriptorRel ⟨10, 0, 20⟩ (2 : Int)).marker
            offset := (descriptorRel ⟨10, 0, 20⟩ (2 : Int)).offset
              + ((5 : Int) - (2 : Int)) - 1 }⟩)
    ∧ getSelectedRange (some c6rtl) c6tc = .ok none := by
  have h := C6_selection_orientation c6ltr c6tc rfl rfl
  have h2 := C6_selection_orientation c6rtl c6tc rfl rfl
  exact ⟨(h.1 rfl ⟨10, 0, 20⟩ rfl (by decide)).1 (by decide),
    (h2.1 rfl ⟨10, 0, 20⟩ rfl (by decide)).2 (by decide)⟩

/-- C7: `getSelectedRange` returns `null` — without raising — whenever the
selection is absent, the anchor or focus node is not a text node, or the
computed selection length is zero; a zero-length selection is never
converted into a Range. -/
theorem C7_null_cases (sel : Option SelectionModel) (tc : TextContentModel) :
    (sel = none → getSelectedRange sel tc = .ok none)
    ∧ (∀ s, sel = some s →
        (s.anchorNode.nodeType ≠ 3 ∨ s.focusNode.nodeType ≠ 3) →
        getSelectedRange sel tc = .ok none)
    ∧ (∀ s, sel = some s →
        (if s.anchorNode.nodeId = s.focusNode.nodeId
          then (s.focusOffset : Int) - (s.anchorOffset : Int)
          else (s.toStringLen : Int)) = 0 →
        getSelectedRange sel tc = .ok none) := by
  refine ⟨?_, ?_, ?_⟩
  · intro h
    subst h
    rfl
  · intro s h hnt
    subst h
    simp only [getSelectedRange]
    rw [if_pos hnt]
  · intro s h hlen
    subst h
    simp only [getSelectedRange]
    by_cases hnt : s.anchorNode.nodeType ≠ 3 ∨ s.focusNode.nodeType ≠ 3
    · rw [if_pos hnt]
    · rw [if_neg hnt]
      rw [if_pos (by rw [hlen])]

theorem C7_null_cases_witness :
    getSelectedRange none c6tc = .ok none
    ∧ getSelectedRange (some ⟨⟨10, 1⟩, 0, ⟨10, 3⟩, 4, 4⟩) c6tc = .ok none
    ∧ getSelectedRange (some ⟨⟨10, 3⟩, 4, ⟨10, 3⟩, 4, 0⟩) c6tc = .ok none := by
  refine ⟨(C7_null_cases none c6tc).1 rfl, ?_, ?_⟩
  · exact (C7_null_cases (some ⟨⟨10, 1⟩, 0, ⟨10, 3⟩, 4, 4⟩) c6tc).2.1 _ rfl
      (by decide)
  · exact (C7_null_cases (some ⟨⟨10, 3⟩, 4, ⟨10, 3⟩, 4, 0⟩) c6tc).2.2 _ rfl
      (by decide)

/-- C8: `apply` drains the queue in enqueue order — the final state is the
left fold of the caught per-action step over the queued actions, splitting
at any decomposition point — and an action that throws is caught (its state
component kept, its error logged and dropped) with every later action still
executed from that state; afterwards the transaction queue is empty. -/
theorem C8_apply_drains (f : HHFull) :
    (apply f).transaction = []
    ∧ (apply f).hh = f.transaction.foldl applyStep f.hh
    ∧ (∀ ts1 a ts2, f.transaction = ts1 ++ a :: ts2 →
        ∀ e, (runAction a (ts1.foldl applyStep f.hh)).2 = some e →
          (apply f).hh
            = ts2.foldl applyStep (runAction a (ts1.foldl applyStep f.hh)).1) := by
  have h2 : (apply f).hh = f.transaction.foldl applyStep f.hh := by
    unfold apply
    split
    · rename_i h
      have hnil : f.transaction = [] := by simpa using h
      rw [hnil]
      rfl
    · rfl
  refine ⟨?_, h2, ?_⟩
  · unfold apply
    split
    · rename_i h
      simpa using h
    · rfl
  · intro ts1 a ts2 hsplit e _
    rw [h2, hsplit, List.foldl_append, List.foldl_cons]
    rfl

theorem C8_apply_drains_witness :
    (apply ⟨initHH 5, [.remove "nope", .add "x" (.arr []) true none]⟩).transaction = []
    ∧ (apply ⟨initHH 5, [.remove "nope", .add "x" (.arr []) true none]⟩).hh
      = [Action.remove "nope", .add "x" (.arr []) true none].foldl applyStep (initHH 5)
    ∧ (apply ⟨initHH 5, [.remove "nope", .add "x" (.arr []) true none]⟩).hh
      = [Action.add "x" (.arr []) true none].foldl applyStep
          (runAction (.remove "nope")
            (([] : List Action).foldl applyStep (initHH 5))).1 := by
  have h := C8_apply_drains ⟨initHH 5, [.remove "nope", .add "x" (.arr []) true none]⟩
  exact ⟨h.1, h.2.1,
    h.2.2 [] (.remove "nope") [.add "x" (.arr []) true none] rfl
      .setNonexistent (by decide)⟩

/-- C9: with `maxHighlight ≥ 1` and `stats.highlight` within
`[0, maxHighlight)`, a successful `add` steps `stats.highlight` to
`(stats.highlight + 1) mod maxHighlight`, and after any `apply`
`stats.highlight` is still in `[0, maxHighlight)` (with `maxHighlight`
itself unchanged). -/
theorem C9_highlight_mod (f : HHFull) (hmax : 1 ≤ f.hh.maxHighlight)
    (hlt : f.hh.stats.highlight < f.hh.maxHighlight) :
    (∀ name queries enabled reserve,
      (runAction (.add name (.arr queries) enabled reserve) f.hh).1.stats.highlight
        = (f.hh.stats.highlight + 1) % f.hh.maxHighlight)
    ∧ (apply f).hh.maxHighlight = f.hh.maxHighlight
    ∧ (apply f).hh.stats.highlight < f.hh.maxHighlight := by
  have happly : (apply f).hh.maxHighlight = f.hh.maxHighlight
      ∧ (apply f).hh.stats.highlight < f.hh.maxHighlight := by
    unfold apply
    split
    · exact ⟨rfl, hlt⟩
    · exact foldl_applyStep_highlight f.transaction f.hh hmax hlt
  refine ⟨?_, happly.1, happly.2⟩
  intro name queries enabled reserve
  show (deferred_add_ f.hh name (.arr queries) enabled reserve).1.stats.highlight = _
  rw [(deferred_add_highlight f.hh name queries enabled reserve).1]
  exact stepHighlight_eq_mod _ _ hlt

theorem C9_highlight_mod_witness :
    (1 ≤ (initHH 5).maxHighlight)
    ∧ ((runAction (.add "x" (.arr []) true none) (initHH 5)).1.stats.highlight
        = (0 + 1) % 5)
    ∧ (apply ⟨initHH 5, [.add "x" (.arr []) true none]⟩).hh.stats.highlight < 5 := by
  have h := C9_highlight_mod ⟨initHH 5, [.add "x" (.arr []) true none]⟩
    (by decide) (by decide)
  exact ⟨by decide, h.1 "x" [] true none, h.2.2⟩

/-- C10: `empty()` is `true` iff every registered query set has length 0 —
it reports the absence of highlights, not of query sets (a registry with
sets but no produced highlight counts as empty). -/
theorem C10_empty_iff (s : HH) :
    empty s = true ↔ ∀ q ∈ s.queries, q.length = 0 := by
  simp only [empty, Bool.not_eq_true', List.any_eq_false, decide_eq_true_eq]
  constructor
  · intro h q hq
    have := h q hq
    omega
  · intro h q hq
    have := h q hq
    omega

end HtmlHighlighterModel
